import Mathlib

set_option maxHeartbeats 1000000

/-!
Shallow embedding of the wordle repository (`wordle.py`): the two-pass
matcher, the game state with its submit/reset/fork operations, the
candidate filter and the guessing policies, together with proofs of the
specification claims about them.
-/

/-- The per-letter classification (`Matching` enum in the source):
`EXACT` renders "+", `SEMI` renders "?", `NONE` renders "_". -/
inductive Matching where
  | EXACT
  | SEMI
  | NONE
  deriving DecidableEq, Repr

/-- The `value` attribute of the `Matching` enum. -/
def Matching.value : Matching → String
  | .EXACT => "+"
  | .SEMI => "?"
  | .NONE => "_"

/-- Game status (`Status` enum in the source). -/
inductive Status where
  | IN_PROGRESS
  | WIN
  | LOSE
  deriving DecidableEq, Repr

/-- `render_ascii`: joins the `value` of every classification.  (The
source's `if matching else " "` guard only concerns `None` entries,
which the typed embedding excludes.) -/
def render_ascii (matchings : List Matching) : String :=
  String.join (matchings.map Matching.value)

/-- `WORD_LEN = 5` from the source. -/
def WORD_LEN : Nat := 5

/-- One iteration of the first pass of `Wordle.match_words`: position
`ig.1` of the guess holds letter `ig.2`; when the answer agrees there,
the position is marked `EXACT` and recorded in the `used` set (the set
is modelled as a duplicate-free list, insertion being a no-op when the
index is already present, exactly the semantics of `set.add`). -/
def pass1_step (answer : List Char) (st : List (Option Matching) × List Nat)
    (ig : Nat × Char) : List (Option Matching) × List Nat :=
  if answer.getD ig.1 ' ' == ig.2 then
    (st.1.set ig.1 (some Matching.EXACT),
      if st.2.contains ig.1 then st.2 else ig.1 :: st.2)
  else st

/-- One iteration of the second pass of `Wordle.match_words`: a still
unmarked guess position scans the answer left to right for the first
unconsumed occurrence of its letter; on success it is marked `SEMI` and
that answer position is consumed. -/
def pass2_step (answer : List Char) (st : List (Option Matching) × List Nat)
    (ig : Nat × Char) : List (Option Matching) × List Nat :=
  match st.1.getD ig.1 none with
  | some _ => st
  | none =>
    match answer.enum.find? (fun ja => ja.2 == ig.2 && !(st.2.contains ja.1)) with
    | some ja =>
      (st.1.set ig.1 (some Matching.SEMI),
        if st.2.contains ja.1 then st.2 else ja.1 :: st.2)
    | none => st

/-- `Wordle.match_words` on character lists: result starts as
`WORD_LEN` unmarked cells, pass 1 marks exact matches, pass 2 marks
present-elsewhere matches, and remaining cells become `NONE`.
(The source indexes `answer[i]` directly, which is in range whenever
the two words have equal length; `getD` makes the function total.) -/
def match_chars (answer guess : List Char) : List Matching :=
  let st1 := guess.enum.foldl (pass1_step answer) (List.replicate WORD_LEN none, [])
  let st2 := guess.enum.foldl (pass2_step answer) st1
  st2.1.map (fun r => r.getD Matching.NONE)

/-- `Wordle.match_words` on strings. -/
def match_words (answer guess : String) : List Matching :=
  match_chars answer.data guess.data

/-- The `Wordle` dataclass.  The two attempt counters are integers, as
in Python (`attemps_left` can go negative, since `submit_guess` never
checks for a terminal status). -/
structure Wordle where
  allowed_words : List String
  answer_words : List String
  max_attemps : Int
  attemps_left : Int
  status : Status
  history : List (String × List Matching)
  answer : String
  deriving DecidableEq, Repr

/-- `Wordle.reset` with an explicit answer (the `random.choice` branch
picks some member of `answer_words`; the claims quantify over the
chosen answer instead). -/
def Wordle.reset (w : Wordle) (answer : String) : Wordle :=
  { w with answer := answer, history := [], status := Status.IN_PROGRESS,
           attemps_left := w.max_attemps }

/-- `Wordle._word_is_allowed`. -/
def Wordle.word_is_allowed (w : Wordle) (word : String) : Bool :=
  w.allowed_words.contains word || w.answer_words.contains word

/-- `Wordle._update_status`: WIN on an all-exact result, else LOSE when
no attempts are left, else IN_PROGRESS. -/
def Wordle.update_status (w : Wordle) (matching_result : List Matching) : Wordle :=
  if matching_result.all (fun r => decide (r = Matching.EXACT)) then
    { w with status := Status.WIN }
  else if w.attemps_left == 0 then
    { w with status := Status.LOSE }
  else
    { w with status := Status.IN_PROGRESS }

/-- `Wordle.submit_guess`.  The Python method raises on a word outside
both dictionaries and otherwise mutates the state; here it returns the
`Except` outcome together with the state after the call (unchanged when
the word is rejected). -/
def Wordle.submit_guess (w : Wordle) (word : String) :
    Except String (List Matching) × Wordle :=
  if !(w.word_is_allowed word) then
    (Except.error (word ++ " is not allowed"), w)
  else
    let matching_result := match_words w.answer word
    let w1 : Wordle :=
      { w with attemps_left := w.attemps_left - 1,
               history := w.history ++ [(word, matching_result)] }
    (Except.ok matching_result, w1.update_status matching_result)

/-- `Wordle._could_answer_fit_history`: the hypothetical answer must
reproduce every recorded result. -/
def Wordle.could_answer_fit_history (w : Wordle) (answer : String) : Bool :=
  w.history.all (fun prev => decide (match_words answer prev.1 = prev.2))

/-- `Wordle.get_candidates`: the answer words consistent with the whole
history, in dictionary order. -/
def Wordle.get_candidates (w : Wordle) : List String :=
  w.answer_words.filter (fun answer => w.could_answer_fit_history answer)

/-- `Wordle.fork`: an independent copy of every field. -/
def Wordle.fork (w : Wordle) : Wordle :=
  { allowed_words := w.allowed_words, answer_words := w.answer_words,
    max_attemps := w.max_attemps, attemps_left := w.attemps_left,
    status := w.status, history := w.history, answer := w.answer }

/-- `Wordle.match_words_with_cache`: look the pair up under the key
`"answer/guess"`, computing and storing the result on a miss.  The
mapping is modelled as an association list, updates shadowing older
entries. -/
def match_words_with_cache (cache : List (String × List Matching))
    (answer guess : String) : List Matching × List (String × List Matching) :=
  let key := answer ++ "/" ++ guess
  match cache.lookup key with
  | some result => (result, cache)
  | none =>
    let result := match_words answer guess
    (result, (key, result) :: cache)

/-- `random.choice` picks one element of a non-empty list (an arbitrary
index, supplied here as a parameter); on the empty list it fails
(`none`, where Python raises IndexError). -/
def random_choice {α : Type} (k : Nat) (l : List α) : Option α :=
  l.get? (k % l.length)

/-- `RandomPolicy.guess`: a random choice among the current candidates. -/
def RandomPolicy.guess (k : Nat) (w : Wordle) : Option String :=
  random_choice k w.get_candidates

/-- The body of the `GreedyEliminationPolicy.guess` cache-miss branch:
score every candidate by how many candidates a trial submission of it
eliminates, and return the first candidate attaining the best score
(`curr_best` starts at 0 and `scores.index` finds the first
occurrence, as in the source); `none` models the IndexError/ValueError
raised on an empty candidate list. -/
def greedy_guess (w : Wordle) : Option String :=
  let candidates := w.get_candidates
  let scores := candidates.map (fun candidate =>
    (candidates.length : Int) -
      ((w.fork.submit_guess candidate).2.get_candidates.length : Int))
  let curr_best := scores.foldl max 0
  match scores.findIdx? (fun s => s == curr_best) with
  | some i => candidates.get? i
  | none => none

/-- The score `len(candidates) - len(list(fork.get_candidates()))`
computed by `GreedyEliminationPolicy.guess` for one candidate. -/
def greedy_score (w : Wordle) (candidate : String) : Int :=
  (w.get_candidates.length : Int) -
    ((w.fork.submit_guess candidate).2.get_candidates.length : Int)

/-- `GreedyEliminationPolicy.guess` including its memo keyed by the
history so far. -/
def GreedyEliminationPolicy.guess
    (cache : List (List (String × List Matching) × String)) (w : Wordle) :
    Option String × List (List (String × List Matching) × String) :=
  match cache.lookup w.history with
  | some g => (some g, cache)
  | none =>
    match greedy_guess w with
    | some g => (some g, (w.history, g) :: cache)
    | none => (none, cache)

/-- The game states reachable through the public lifecycle: a reset
(with any chosen answer) followed by `submit_guess` calls; a rejected
guess leaves the state unchanged, so the post-state of every call is
reachable. -/
inductive Reachable : Wordle → Prop where
  | reset (w : Wordle) (answer : String) : Reachable (w.reset answer)
  | step (w : Wordle) (word : String) :
      Reachable w → Reachable (w.submit_guess word).2

/-- A small concrete game used to instantiate the claims: two answer
words, no extra allowed words, a single attempt. -/
def demo : Wordle :=
  { allowed_words := [], answer_words := ["aaaaa", "bbbbb"], max_attemps := 1,
    attemps_left := 0, status := Status.IN_PROGRESS, history := [], answer := "" }

/-- The demo game reset with answer "aaaaa". -/
def demo0 : Wordle := demo.reset "aaaaa"

/-- The demo game after guessing its answer: a won, terminal state. -/
def demo1 : Wordle := (demo0.submit_guess "aaaaa").2

/-- `update_status` only rewrites the `status` field. -/
theorem update_status_fields (w : Wordle) (r : List Matching) :
    (w.update_status r).history = w.history ∧
    (w.update_status r).attemps_left = w.attemps_left ∧
    (w.update_status r).max_attemps = w.max_attemps ∧
    (w.update_status r).answer_words = w.answer_words ∧
    (w.update_status r).allowed_words = w.allowed_words ∧
    (w.update_status r).answer = w.answer := by
  unfold Wordle.update_status
  split
  · simp
  · split <;> simp

/-- On an allowed word, `submit_guess` produces the explicitly updated
record (attempt spent, pair appended, status recomputed). -/
theorem submit_guess_snd_of_allowed (w : Wordle) (word : String)
    (h : w.word_is_allowed word = true) :
    (w.submit_guess word).2 =
      Wordle.update_status
        { w with attemps_left := w.attemps_left - 1,
                 history := w.history ++ [(word, match_words w.answer word)] }
        (match_words w.answer word) := by
  unfold Wordle.submit_guess
  simp [h]

/-- On a word outside both dictionaries, `submit_guess` leaves the
state unchanged. -/
theorem submit_guess_snd_of_not_allowed (w : Wordle) (word : String)
    (h : w.word_is_allowed word = false) :
    (w.submit_guess word).2 = w := by
  unfold Wordle.submit_guess
  simp [h]

/-- C1: the seven literal scenarios of the spec, each rendered with
'+' for Exact, '?' for Present and '_' for Absent. -/
theorem C1_literal_scenarios :
    render_ascii (match_words "abcde" "abcde") = "+++++" ∧
    render_ascii (match_words "aaaab" "aaabc") = "+++?_" ∧
    render_ascii (match_words "words" "sword") = "?????" ∧
    render_ascii (match_words "abbey" "opens") = "__?__" ∧
    render_ascii (match_words "abbey" "babes") = "??++_" ∧
    render_ascii (match_words "abbey" "kebab") = "_?+??" ∧
    render_ascii (match_words "abbey" "abyss") = "++?__" := by
  decide

/-- C4: `submit_guess` errs exactly on words outside both dictionaries,
leaving the state unchanged; on an allowed word it returns the matching
result, appends the pair to the history, decrements the attempt counter
and recomputes the status from the new result. -/
theorem C4_submit_guess_contract (w : Wordle) (word : String) :
    ((w.submit_guess word).1 = Except.error (word ++ " is not allowed") ↔
      (word ∉ w.allowed_words ∧ word ∉ w.answer_words)) ∧
    ((word ∉ w.allowed_words ∧ word ∉ w.answer_words) →
      (w.submit_guess word).2 = w) ∧
    ((word ∈ w.allowed_words ∨ word ∈ w.answer_words) →
      (w.submit_guess word).1 = Except.ok (match_words w.answer word) ∧
      (w.submit_guess word).2 =
        Wordle.update_status
          { w with attemps_left := w.attemps_left - 1,
                   history := w.history ++ [(word, match_words w.answer word)] }
          (match_words w.answer word)) := by
  unfold Wordle.submit_guess Wordle.word_is_allowed
  by_cases hA : word ∈ w.allowed_words <;> by_cases hB : word ∈ w.answer_words <;>
    simp [hA, hB]

/-- Witness for C4 at a concrete state and word. -/
theorem C4_submit_guess_contract_witness :
    ("aaaaa" ∈ demo0.allowed_words ∨ "aaaaa" ∈ demo0.answer_words) ∧
    (demo0.submit_guess "aaaaa").1 = Except.ok (match_words demo0.answer "aaaaa") ∧
    (demo0.submit_guess "aaaaa").2 =
      Wordle.update_status
        { demo0 with attemps_left := demo0.attemps_left - 1,
                     history := demo0.history ++
                       [("aaaaa", match_words demo0.answer "aaaaa")] }
        (match_words demo0.answer "aaaaa") :=
  ⟨by decide, (C4_submit_guess_contract demo0 "aaaaa").2.2 (by decide)⟩

/-- C5: in every reachable state, history length plus the remaining
attempt counter equals the attempt budget. -/
theorem C5_attempt_budget_invariant (w : Wordle) (h : Reachable w) :
    (w.history.length : Int) + w.attemps_left = w.max_attemps := by
  induction h with
  | reset w answer => simp [Wordle.reset]
  | step w word hw ih =>
    by_cases hA : w.word_is_allowed word
    · rw [submit_guess_snd_of_allowed w word hA]
      obtain ⟨h1, h2, h3, -⟩ := update_status_fields
        { w with attemps_left := w.attemps_left - 1,
                 history := w.history ++ [(word, match_words w.answer word)] }
        (match_words w.answer word)
      rw [h1, h2, h3]
      simp only [List.length_append, List.length_cons, List.length_nil]
      push_cast
      omega
    · rw [submit_guess_snd_of_not_allowed w word (by simpa using hA)]
      exact ih

/-- Witness for C5 at a concrete reachable state. -/
theorem C5_attempt_budget_invariant_witness :
    (demo1.history.length : Int) + demo1.attemps_left = demo1.max_attemps :=
  C5_attempt_budget_invariant demo1
    (Reachable.step demo0 "aaaaa" (Reachable.reset demo "aaaaa"))

/-- C6: in every reachable state with a non-empty history, the status
is Win exactly when the latest result is all-Exact, Lose exactly when
no attempts remain and the game is not won, and In-Progress otherwise. -/
theorem C6_status_invariant (w : Wordle) (h : Reachable w) (g : String)
    (r : List Matching) (hlast : w.history.getLast? = some (g, r)) :
    (w.status = Status.WIN ↔ r.all (fun m => decide (m = Matching.EXACT)) = true) ∧
    (w.status = Status.LOSE ↔ (w.attemps_left = 0 ∧ w.status ≠ Status.WIN)) ∧
    (w.status ≠ Status.WIN → w.status ≠ Status.LOSE → w.status = Status.IN_PROGRESS) := by
  induction h generalizing g r with
  | reset w answer => simp [Wordle.reset] at hlast
  | step w word hw ih =>
    by_cases hA : w.word_is_allowed word
    · rw [submit_guess_snd_of_allowed w word hA] at hlast ⊢
      obtain ⟨h1, h2, -⟩ := update_status_fields
        { w with attemps_left := w.attemps_left - 1,
                 history := w.history ++ [(word, match_words w.answer word)] }
        (match_words w.answer word)
      rw [h1] at hlast
      rw [h2]
      simp only [List.getLast?_concat, Option.some.injEq, Prod.mk.injEq] at hlast
      obtain ⟨hg, hr⟩ := hlast
      subst hg hr
      unfold Wordle.update_status
      split
      · rename_i hall
        simp [hall]
      · split
        · rename_i hnall hzero
          simp only [beq_iff_eq] at hzero
          simp [hnall, hzero]
        · rename_i hnall hnzero
          simp only [beq_iff_eq] at hnzero
          simp [hnall, hnzero]
    · rw [submit_guess_snd_of_not_allowed w word (by simpa using hA)] at hlast ⊢
      exact ih g r hlast

/-- Witness for C6 at a concrete reachable state with history. -/
theorem C6_status_invariant_witness :
    (demo1.status = Status.WIN ↔
      (match_words "aaaaa" "aaaaa").all (fun m => decide (m = Matching.EXACT)) = true) ∧
    (demo1.status = Status.LOSE ↔ (demo1.attemps_left = 0 ∧ demo1.status ≠ Status.WIN)) ∧
    (demo1.status ≠ Status.WIN → demo1.status ≠ Status.LOSE →
      demo1.status = Status.IN_PROGRESS) :=
  C6_status_invariant demo1
    (Reachable.step demo0 "aaaaa" (Reachable.reset demo "aaaaa"))
    "aaaaa" (match_words "aaaaa" "aaaaa") (by decide)

/-- C3 counterexample: `demo1` is a reachable, won (terminal) game, yet
`submit_guess` accepts a further dictionary word and mutates both the
history and the attempt counter — the code never checks the status. -/
theorem C3_counterexample :
    Reachable demo1 ∧ demo1.status = Status.WIN ∧
    (demo1.submit_guess "bbbbb").1 = Except.ok (match_words "aaaaa" "bbbbb") ∧
    (demo1.submit_guess "bbbbb").2.history ≠ demo1.history ∧
    (demo1.submit_guess "bbbbb").2.attemps_left ≠ demo1.attemps_left :=
  ⟨Reachable.step demo0 "aaaaa" (Reachable.reset demo "aaaaa"),
    by decide, by rfl, by decide, by decide⟩

/-- C3 amended: a terminal (Win or Lose) status does not cause
`submit_guess` to reject: a word outside both dictionaries is rejected
with the state unchanged exactly as in any other state, while an
allowed word is still processed — the attempt counter is decremented
and the pair is appended to the history. -/
theorem C3_amended_terminal_submit (w : Wordle) (word : String)
    (_hterm : w.status = Status.WIN ∨ w.status = Status.LOSE) :
    (w.word_is_allowed word = false →
      (w.submit_guess word).1 = Except.error (word ++ " is not allowed") ∧
      (w.submit_guess word).2 = w) ∧
    (w.word_is_allowed word = true →
      (w.submit_guess word).1 = Except.ok (match_words w.answer word) ∧
      (w.submit_guess word).2.history =
        w.history ++ [(word, match_words w.answer word)] ∧
      (w.submit_guess word).2.attemps_left = w.attemps_left - 1) := by
  constructor
  · intro hA
    refine ⟨?_, submit_guess_snd_of_not_allowed w word hA⟩
    unfold Wordle.submit_guess
    simp [hA]
  · intro hA
    rw [submit_guess_snd_of_allowed w word hA]
    obtain ⟨h1, h2, -⟩ := update_status_fields
      { w with attemps_left := w.attemps_left - 1,
               history := w.history ++ [(word, match_words w.answer word)] }
      (match_words w.answer word)
    refine ⟨?_, by rw [h1], by rw [h2]⟩
    unfold Wordle.submit_guess
    simp [hA]

/-- Witness for the amended C3 at the concrete won state `demo1`. -/
theorem C3_amended_terminal_submit_witness :
    (demo1.status = Status.WIN ∨ demo1.status = Status.LOSE) ∧
    ((demo1.submit_guess "bbbbb").1 = Except.ok (match_words demo1.answer "bbbbb") ∧
      (demo1.submit_guess "bbbbb").2.history =
        demo1.history ++ [("bbbbb", match_words demo1.answer "bbbbb")] ∧
      (demo1.submit_guess "bbbbb").2.attemps_left = demo1.attemps_left - 1) :=
  ⟨Or.inl (by decide),
    (C3_amended_terminal_submit demo1 "bbbbb" (Or.inl (by decide))).2 (by decide)⟩

/-- `get_candidates` only reads the answer dictionary and the history. -/
theorem get_candidates_congr (w w' : Wordle)
    (h1 : w'.answer_words = w.answer_words) (h2 : w'.history = w.history) :
    w'.get_candidates = w.get_candidates := by
  unfold Wordle.get_candidates Wordle.could_answer_fit_history
  rw [h1, h2]

/-- Appending a pair to the history refines the candidate filter: the
new candidate list is a sublist of the old one. -/
theorem candidates_append_sublist (w : Wordle) (g : String) (r : List Matching) :
    List.Sublist ({ w with history := w.history ++ [(g, r)] } : Wordle).get_candidates
      w.get_candidates := by
  unfold Wordle.get_candidates Wordle.could_answer_fit_history
  apply List.monotone_filter_right
  intro a ha
  simp only [List.all_append, Bool.and_eq_true] at ha
  exact ha.1

/-- C7: candidate filtering is monotone — after appending any
(guess, result) pair to the history the candidate list is a subset of,
and no longer than, the one before. -/
theorem C7_candidate_monotonicity (w : Wordle) (g : String) (r : List Matching) :
    ({ w with history := w.history ++ [(g, r)] } : Wordle).get_candidates ⊆
      w.get_candidates ∧
    ({ w with history := w.history ++ [(g, r)] } : Wordle).get_candidates.length ≤
      w.get_candidates.length :=
  ⟨(candidates_append_sublist w g r).subset,
    (candidates_append_sublist w g r).length_le⟩

/-- For fixed-length words the cache key `answer ++ "/" ++ guess`
determines the pair. -/
theorem cache_key_inj (a g a' g' : String) (ha : a.length = 5) (ha' : a'.length = 5)
    (h : a ++ "/" ++ g = a' ++ "/" ++ g') : a = a' ∧ g = g' := by
  have hd : (a.data ++ "/".data) ++ g.data = (a'.data ++ "/".data) ++ g'.data := by
    have := congrArg String.data h
    simpa [String.data_append, List.append_assoc] using this
  have hlen : (a.data ++ "/".data).length = (a'.data ++ "/".data).length := by
    have ha2 : a.data.length = 5 := ha
    have ha2' : a'.data.length = 5 := ha'
    simp [ha2, ha2']
  obtain ⟨h1, h2⟩ := List.append_inj hd (by simpa using hlen)
  obtain ⟨h3, -⟩ := List.append_inj h1 (by simp [show a.data.length = 5 from ha,
    show a'.data.length = 5 from ha'])
  refine ⟨?_, ?_⟩
  · cases a; cases a'; exact congrArg String.mk h3
  · cases g; cases g'; exact congrArg String.mk h2

/-- A cache is good when every length-5/length-5 keyed entry stores the
plain matcher's result for that pair. -/
def cache_good (cache : List (String × List Matching)) : Prop :=
  ∀ a g r, a.length = 5 → g.length = 5 →
    cache.lookup (a ++ "/" ++ g) = some r → r = match_words a g

/-- C9: on every good cache (the empty cache in particular) the cached
matcher returns exactly the plain matcher's result, and the updated
cache is good again. -/
theorem C9_cached_matcher_equivalence (cache : List (String × List Matching))
    (answer guess : String) (ha : answer.length = 5) (hg : guess.length = 5)
    (hc : cache_good cache) :
    (match_words_with_cache cache answer guess).1 = match_words answer guess ∧
    cache_good (match_words_with_cache cache answer guess).2 := by
  cases hl : List.lookup (answer ++ "/" ++ guess) cache with
  | some v =>
    have hcall : match_words_with_cache cache answer guess = (v, cache) := by
      unfold match_words_with_cache
      simp only [hl]
    rw [hcall]
    exact ⟨hc answer guess v ha hg hl, hc⟩
  | none =>
    have hcall : match_words_with_cache cache answer guess =
        (match_words answer guess,
          (answer ++ "/" ++ guess, match_words answer guess) :: cache) := by
      unfold match_words_with_cache
      simp only [hl]
    rw [hcall]
    refine ⟨rfl, ?_⟩
    intro a g r ha' hg' hl'
    rw [List.lookup_cons] at hl'
    by_cases hk : (a ++ "/" ++ g) = (answer ++ "/" ++ guess)
    · obtain ⟨rfl, rfl⟩ := cache_key_inj a g answer guess ha' ha hk
      simp only [beq_self_eq_true] at hl'
      simpa using hl'.symm
    · rw [show ((a ++ "/" ++ g) == (answer ++ "/" ++ guess)) = false by
        simpa using hk] at hl'
      exact hc a g r ha' hg' hl'

/-- Witness for C9: the empty cache is good, and one call on it
produces the plain result and a good cache. -/
theorem C9_cached_matcher_equivalence_witness :
    (match_words_with_cache [] "abbey" "kebab").1 = match_words "abbey" "kebab" ∧
    cache_good (match_words_with_cache [] "abbey" "kebab").2 :=
  C9_cached_matcher_equivalence [] "abbey" "kebab" rfl rfl
    (fun _ _ _ _ _ h => nomatch h)

/-- Membership in the candidate list. -/
theorem mem_get_candidates (w : Wordle) (c : String) :
    c ∈ w.get_candidates ↔
      c ∈ w.answer_words ∧ w.could_answer_fit_history c = true := by
  unfold Wordle.get_candidates
  simp [List.mem_filter]

/-- Every answer word passes the dictionary check. -/
theorem word_is_allowed_of_mem_answer (w : Wordle) (c : String)
    (hc : c ∈ w.answer_words) : w.word_is_allowed c = true := by
  unfold Wordle.word_is_allowed
  simp only [Bool.or_eq_true, List.contains, List.elem_iff]
  exact Or.inr hc

/-- On an allowed word, `submit_guess` reports the matching result. -/
theorem submit_guess_fst_of_allowed (w : Wordle) (word : String)
    (h : w.word_is_allowed word = true) :
    (w.submit_guess word).1 = Except.ok (match_words w.answer word) := by
  unfold Wordle.submit_guess
  simp [h]

/-- `fork` copies every field, so it is the identity on the value. -/
theorem fork_eq (w : Wordle) : w.fork = w := rfl

/-- The candidate list of the fork after a trial submission of an
allowed word is the candidate list under the extended history. -/
theorem trial_candidates_eq (w : Wordle) (c : String)
    (hc : w.word_is_allowed c = true) :
    (w.fork.submit_guess c).2.get_candidates =
      ({ w with history := w.history ++ [(c, match_words w.answer c)] } :
        Wordle).get_candidates := by
  rw [fork_eq, submit_guess_snd_of_allowed w c hc]
  exact get_candidates_congr _ _
    (update_status_fields _ _).2.2.2.1 (update_status_fields _ _).1

/-- A trial submission of a candidate never enlarges the candidate
list, so its greedy score is non-negative. -/
theorem greedy_score_nonneg (w : Wordle) (c : String)
    (hc : c ∈ w.get_candidates) : 0 ≤ greedy_score w c := by
  have hall : w.word_is_allowed c = true :=
    word_is_allowed_of_mem_answer w c ((mem_get_candidates w c).mp hc).1
  unfold greedy_score
  rw [trial_candidates_eq w c hall]
  have hle := (candidates_append_sublist w c (match_words w.answer c)).length_le
  omega

/-- The initial accumulator never exceeds an iterated integer `max`. -/
theorem foldl_max_init_le (l : List Int) (a : Int) : a ≤ l.foldl max a := by
  induction l generalizing a with
  | nil => exact le_refl a
  | cons x t ih => exact le_trans (le_max_left a x) (ih (max a x))

/-- Every member is below the iterated integer `max`. -/
theorem le_foldl_max_of_mem (l : List Int) : ∀ (a x : Int), x ∈ l →
    x ≤ l.foldl max a := by
  induction l with
  | nil => intro a x hx; cases hx
  | cons y t ih =>
    intro a x hx
    rcases List.mem_cons.mp hx with rfl | hx'
    · exact le_trans (le_max_right a x) (foldl_max_init_le t (max a x))
    · exact ih (max a y) x hx'

/-- An iterated integer `max` is the accumulator or one of the members. -/
theorem foldl_max_eq_init_or_mem (l : List Int) (a : Int) :
    l.foldl max a = a ∨ l.foldl max a ∈ l := by
  induction l generalizing a with
  | nil => exact Or.inl rfl
  | cons x t ih =>
    rcases ih (max a x) with h | h
    · rcases max_choice a x with hax | hax
      · rw [List.foldl_cons, h, hax]; exact Or.inl rfl
      · rw [List.foldl_cons, h, hax]; exact Or.inr (List.mem_cons_self x t)
    · exact Or.inr (List.mem_cons_of_mem x h)

/-- `greedy_guess` written through `greedy_score`. -/
theorem greedy_guess_eq (w : Wordle) :
    greedy_guess w =
      match (w.get_candidates.map (greedy_score w)).findIdx?
          (fun s => s == (w.get_candidates.map (greedy_score w)).foldl max 0) with
      | some i => w.get_candidates.get? i
      | none => none := rfl

/-- `greedy_guess` on a non-empty candidate list returns the first
candidate whose score is maximal among all candidates. -/
theorem greedy_guess_spec (w : Wordle) (h : w.get_candidates ≠ []) :
    ∃ i, ∃ hi : i < w.get_candidates.length,
      greedy_guess w = some (w.get_candidates.get ⟨i, hi⟩) ∧
      (∀ j (hj : j < w.get_candidates.length),
        greedy_score w (w.get_candidates.get ⟨j, hj⟩) ≤
          greedy_score w (w.get_candidates.get ⟨i, hi⟩)) ∧
      (∀ j (hj : j < w.get_candidates.length), j < i →
        greedy_score w (w.get_candidates.get ⟨j, hj⟩) <
          greedy_score w (w.get_candidates.get ⟨i, hi⟩)) := by
  set cands := w.get_candidates with hcands
  set scores := cands.map (greedy_score w) with hscores
  set curr_best := scores.foldl max 0 with hbest
  have hnonneg : ∀ s ∈ scores, 0 ≤ s := by
    intro s hs
    obtain ⟨c, hcmem, rfl⟩ := List.mem_map.mp hs
    exact greedy_score_nonneg w c hcmem
  have hbest_mem : curr_best ∈ scores := by
    rcases foldl_max_eq_init_or_mem scores 0 with h0 | hmem
    · have hscne : scores ≠ [] := by
        simpa [hscores, List.map_eq_nil_iff] using h
      obtain ⟨s, hs⟩ := List.exists_mem_of_ne_nil scores hscne
      have h1 : s ≤ curr_best := le_foldl_max_of_mem scores 0 s hs
      have h2 : 0 ≤ s := hnonneg s hs
      have : s = curr_best := by omega
      rwa [← this]
    · rwa [hbest]
  have hfound : ∃ x, x ∈ scores ∧ (x == curr_best) = true :=
    ⟨curr_best, hbest_mem, beq_self_eq_true curr_best⟩
  cases hfind : scores.findIdx? (fun s => s == curr_best) with
  | none =>
    rw [List.findIdx?_eq_none_iff] at hfind
    obtain ⟨x, hx1, hx2⟩ := hfound
    rw [hfind x hx1] at hx2
    cases hx2
  | some i =>
    obtain ⟨hi, hpi, hpj⟩ := List.findIdx?_eq_some_iff_getElem.mp hfind
    have hilen : i < cands.length := by simpa [hscores] using hi
    have hival : scores[i] = curr_best := by simpa using hpi
    refine ⟨i, hilen, ?_, ?_, ?_⟩
    · rw [greedy_guess_eq w, ← hcands, ← hscores, ← hbest, hfind]
      simp [List.get?_eq_getElem?, List.getElem?_eq_getElem hilen]
    · intro j hj
      have hjs : j < scores.length := by simpa [hscores] using hj
      have hmem : scores.get ⟨j, hjs⟩ ∈ scores := List.get_mem _ _ _
      have hle : scores.get ⟨j, hjs⟩ ≤ curr_best :=
        le_foldl_max_of_mem scores 0 _ hmem
      have hjval : scores.get ⟨j, hjs⟩ = greedy_score w (cands.get ⟨j, hj⟩) := by
        simp [hscores, List.get_eq_getElem]
      have hival' : greedy_score w (cands.get ⟨i, hilen⟩) = curr_best := by
        rw [← hival]
        simp [hscores, List.get_eq_getElem]
      rw [hival']
      rw [hjval] at hle
      exact hle
    · intro j hj hji
      have hjs : j < scores.length := by simpa [hscores] using hj
      have hne := hpj j hji
      have hmem : scores.get ⟨j, hjs⟩ ∈ scores := List.get_mem _ _ _
      have hle : scores.get ⟨j, hjs⟩ ≤ curr_best :=
        le_foldl_max_of_mem scores 0 _ hmem
      have hne' : scores.get ⟨j, hjs⟩ ≠ curr_best := by
        simpa using hne
      have hjval : scores.get ⟨j, hjs⟩ = greedy_score w (cands.get ⟨j, hj⟩) := by
        simp [hscores, List.get_eq_getElem]
      have hival' : greedy_score w (cands.get ⟨i, hilen⟩) = curr_best := by
        rw [← hival]
        simp [hscores, List.get_eq_getElem]
      rw [hival']
      rw [hjval] at hle hne'
      omega

/-- C8: on a cache miss with a non-empty candidate list,
`GreedyEliminationPolicy.guess` returns the candidate maximising the
number of eliminated candidates, ties broken in favour of the first
candidate in iteration order (every earlier candidate scores strictly
less). -/
theorem C8_greedy_elimination_policy (w : Wordle)
    (cache : List (List (String × List Matching) × String))
    (hmiss : cache.lookup w.history = none)
    (h : w.get_candidates ≠ []) :
    ∃ i, ∃ hi : i < w.get_candidates.length,
      (GreedyEliminationPolicy.guess cache w).1 =
        some (w.get_candidates.get ⟨i, hi⟩) ∧
      (∀ j (hj : j < w.get_candidates.length),
        greedy_score w (w.get_candidates.get ⟨j, hj⟩) ≤
          greedy_score w (w.get_candidates.get ⟨i, hi⟩)) ∧
      (∀ j (hj : j < w.get_candidates.length), j < i →
        greedy_score w (w.get_candidates.get ⟨j, hj⟩) <
          greedy_score w (w.get_candidates.get ⟨i, hi⟩)) := by
  obtain ⟨i, hi, hg, hmax, htie⟩ := greedy_guess_spec w h
  refine ⟨i, hi, ?_, hmax, htie⟩
  unfold GreedyEliminationPolicy.guess
  simp only [hmiss, hg]

/-- Witness for C8 on a concrete two-candidate state with empty memo. -/
theorem C8_greedy_elimination_policy_witness :
    (List.lookup demo0.history
        ([] : List (List (String × List Matching) × String)) = none) ∧
    demo0.get_candidates ≠ [] ∧
    (∃ i, ∃ hi : i < demo0.get_candidates.length,
      (GreedyEliminationPolicy.guess [] demo0).1 =
        some (demo0.get_candidates.get ⟨i, hi⟩) ∧
      (∀ j (hj : j < demo0.get_candidates.length),
        greedy_score demo0 (demo0.get_candidates.get ⟨j, hj⟩) ≤
          greedy_score demo0 (demo0.get_candidates.get ⟨i, hi⟩)) ∧
      (∀ j (hj : j < demo0.get_candidates.length), j < i →
        greedy_score demo0 (demo0.get_candidates.get ⟨j, hj⟩) <
          greedy_score demo0 (demo0.get_candidates.get ⟨i, hi⟩))) :=
  ⟨rfl, by decide, C8_greedy_elimination_policy demo0 [] rfl (by decide)⟩

/-- C10: on a non-empty candidate list both policies produce a guess,
and any guess they produce is itself a candidate — an answer word
consistent with the whole history — so submitting it succeeds rather
than raising the invalid-word error. -/
theorem C10_policy_guesses_are_candidates (w : Wordle) (k : Nat)
    (h : w.get_candidates ≠ []) :
    ((RandomPolicy.guess k w).isSome = true ∧
      (greedy_guess w).isSome = true) ∧
    (∀ c, (RandomPolicy.guess k w = some c ∨ greedy_guess w = some c) →
      c ∈ w.get_candidates ∧ c ∈ w.answer_words ∧
      w.could_answer_fit_history c = true ∧
      (w.submit_guess c).1 = Except.ok (match_words w.answer c)) := by
  have hlen : 0 < w.get_candidates.length := List.length_pos.mpr h
  have hmod : k % w.get_candidates.length < w.get_candidates.length :=
    Nat.mod_lt k hlen
  have hrand : RandomPolicy.guess k w =
      some (w.get_candidates.get ⟨k % w.get_candidates.length, hmod⟩) := by
    unfold RandomPolicy.guess random_choice
    rw [List.get?_eq_getElem?, List.getElem?_eq_getElem hmod]
    rfl
  obtain ⟨i, hi, hg, -, -⟩ := greedy_guess_spec w h
  have hmem : ∀ c, (RandomPolicy.guess k w = some c ∨ greedy_guess w = some c) →
      c ∈ w.get_candidates := by
    intro c hc
    rcases hc with hc | hc
    · rw [hrand] at hc
      cases hc
      exact List.get_mem _ _ _
    · rw [hg] at hc
      cases hc
      exact List.get_mem _ _ _
  refine ⟨⟨by rw [hrand]; rfl, by rw [hg]; rfl⟩, ?_⟩
  intro c hc
  have hcand := hmem c hc
  obtain ⟨hans, hfit⟩ := (mem_get_candidates w c).mp hcand
  exact ⟨hcand, hans, hfit,
    submit_guess_fst_of_allowed w c (word_is_allowed_of_mem_answer w c hans)⟩

/-- Witness for C10 on a concrete two-candidate state. -/
theorem C10_policy_guesses_are_candidates_witness :
    demo0.get_candidates ≠ [] ∧
    (((RandomPolicy.guess 0 demo0).isSome = true ∧
       (greedy_guess demo0).isSome = true) ∧
     (∀ c, (RandomPolicy.guess 0 demo0 = some c ∨ greedy_guess demo0 = some c) →
       c ∈ demo0.get_candidates ∧ c ∈ demo0.answer_words ∧
       demo0.could_answer_fit_history c = true ∧
       (demo0.submit_guess c).1 = Except.ok (match_words demo0.answer c))) :=
  ⟨by decide, C10_policy_guesses_are_candidates demo0 0 (by decide)⟩

/-- `getD` after an in-range `set` at the written index. -/
theorem getD_set_self {α : Type} (v d : α) : ∀ (l : List α) (i : Nat),
    i < l.length → (l.set i v).getD i d = v := by
  intro l
  induction l with
  | nil => intro i h; cases h
  | cons x t ih =>
    intro i h
    cases i with
    | zero => rfl
    | succ n => exact ih n (by simpa using h)

/-- `getD` after a `set` at a different index. -/
theorem getD_set_ne {α : Type} (v d : α) : ∀ (l : List α) (i n : Nat),
    n ≠ i → (l.set i v).getD n d = l.getD n d := by
  intro l
  induction l with
  | nil => intro i n _; rfl
  | cons x t ih =>
    intro i n hne
    cases i with
    | zero =>
      cases n with
      | zero => exact absurd rfl hne
      | succ m => rfl
    | succ k =>
      cases n with
      | zero => rfl
      | succ m => exact ih k m (fun hc => hne (by rw [hc]))

/-- `getD` of a replicated list is the default. -/
theorem getD_replicate {α : Type} (d : α) : ∀ (k n : Nat),
    (List.replicate k d).getD n d = d := by
  intro k
  induction k with
  | zero => intro n; rfl
  | succ m ih =>
    intro n
    cases n with
    | zero => rfl
    | succ j => exact ih j

/-- Membership through the guarded insertion used to model `set.add`. -/
theorem mem_insert_if (l : List Nat) (i n : Nat) :
    (n ∈ if l.contains i then l else i :: l) ↔ (n = i ∨ n ∈ l) := by
  split
  · rename_i hcon
    have hil : i ∈ l := by simpa [List.contains, List.elem_iff] using hcon
    constructor
    · exact Or.inr
    · rintro (rfl | h)
      · exact hil
      · exact h
  · exact List.mem_cons

/-- The guarded insertion keeps the used set duplicate-free. -/
theorem nodup_insert_if (l : List Nat) (i : Nat) (h : l.Nodup) :
    (if l.contains i then l else i :: l).Nodup := by
  split
  · exact h
  · rename_i hcon
    have : i ∉ l := by simpa [List.contains, List.elem_iff] using hcon
    exact List.nodup_cons.mpr ⟨this, h⟩

/-- A predicate preserved by every step is preserved by `foldl`. -/
theorem foldl_invariant {α β : Type} (f : β → α → β) (P : β → Prop) :
    ∀ (l : List α) (b : β), P b → (∀ st x, x ∈ l → P st → P (f st x)) →
      P (l.foldl f b) := by
  intro l
  induction l with
  | nil => intro b hb _; exact hb
  | cons x t ih =>
    intro b hb hstep
    exact ih (f b x) (hstep b x (List.mem_cons_self x t) hb)
      (fun st y hy hst => hstep st y (List.mem_cons_of_mem x hy) hst)

/-- An `enum` member gives an in-range index and the value there. -/
theorem mem_enum_getD {α : Type} (l : List α) (i : Nat) (c : α) (d : α)
    (h : (i, c) ∈ l.enum) : i < l.length ∧ l.getD i d = c := by
  rw [List.mem_enum_iff_getElem?] at h
  obtain ⟨hlt, -⟩ := List.getElem?_eq_some.mp h
  refine ⟨hlt, ?_⟩
  rw [List.getD_eq_getElem?_getD, h]
  rfl

/-- Flipping one element of a duplicate-free list from false to `q i`
changes the filtered length by exactly the indicator of `q i`. -/
theorem length_filter_update {α : Type} [DecidableEq α] :
    ∀ (l : List α), l.Nodup → ∀ (i : α), i ∈ l → ∀ (p q : α → Bool),
      p i = false → (∀ j ∈ l, j ≠ i → p j = q j) →
      (l.filter q).length = (l.filter p).length + (if q i then 1 else 0) := by
  intro l
  induction l with
  | nil => intro _ i hi; cases hi
  | cons x t ih =>
    intro hnd i hi p q hpi hagree
    obtain ⟨hxt, hndt⟩ := List.nodup_cons.mp hnd
    rcases List.mem_cons.mp hi with rfl | hit
    · have hteq : t.filter p = t.filter q :=
        List.filter_congr (fun j hj =>
          hagree j (List.mem_cons_of_mem _ hj) (ne_of_mem_of_not_mem hj hxt))
      rw [List.filter_cons, List.filter_cons, hpi, hteq]
      cases hqx : q i <;> simp [hqx]
    · have hxi : x ≠ i := fun hc => hxt (hc ▸ hit)
      have hpq : p x = q x := hagree x (List.mem_cons_self x t) hxi
      have hrec := ih hndt i hit p q hpi
        (fun j hj hji => hagree j (List.mem_cons_of_mem x hj) hji)
      rw [List.filter_cons, List.filter_cons, hpq]
      cases hqx : q x
      · rw [if_neg (by simp : ¬ (false = true)),
          if_neg (by simp : ¬ (false = true))]
        exact hrec
      · rw [if_pos rfl, if_pos rfl, List.length_cons, List.length_cons]
        omega

/-- Filtering a duplicate-free bounded list of indices counts the same
as filtering the full range restricted to its members. -/
theorem length_filter_eq_range_filter (n : Nat) (u : List Nat) (hnd : u.Nodup)
    (hb : ∀ j ∈ u, j < n) (p : Nat → Bool) :
    (u.filter p).length =
      ((List.range n).filter (fun i => decide (i ∈ u) && p i)).length := by
  have h1 : (u.filter p).Nodup := hnd.filter p
  have h2 : ((List.range n).filter (fun i => decide (i ∈ u) && p i)).Nodup :=
    (List.nodup_range n).filter _
  have hperm : (u.filter p).Perm
      ((List.range n).filter (fun i => decide (i ∈ u) && p i)) := by
    rw [List.perm_ext_iff_of_nodup h1 h2]
    intro a
    simp only [List.mem_filter, List.mem_range, Bool.and_eq_true, decide_eq_true_eq]
    constructor
    · rintro ⟨ha, hpa⟩
      exact ⟨hb a ha, ha, hpa⟩
    · rintro ⟨-, ha, hpa⟩
      exact ⟨ha, hpa⟩
  exact hperm.length_eq

/-- Occurrence counting through positions of the range. -/
theorem count_eq_length_filter_range (c d : Char) : ∀ (l : List Char),
    l.count c = ((List.range l.length).filter (fun i => l.getD i d == c)).length := by
  intro l
  induction l with
  | nil => rfl
  | cons x t ih =>
    rw [List.length_cons, List.range_succ_eq_map, List.filter_cons]
    rw [List.filter_map Nat.succ (List.range t.length)]
    have hcomp : ((fun i => (x :: t).getD i d == c) ∘ Nat.succ) =
        (fun i => t.getD i d == c) := by
      funext i
      rfl
    rw [hcomp]
    have hx : ((x :: t).getD 0 d == c) = (x == c) := rfl
    rw [hx, List.count_cons, ih]
    cases hxc : x == c <;> simp [hxc, List.length_map]

/-- Positions of the intermediate result that are marked and hold guess
letter `c`. -/
def markedCount (res : List (Option Matching)) (guess : List Char) (c : Char) : Nat :=
  ((List.range guess.length).filter
    (fun i => (res.getD i none).isSome && (guess.getD i ' ' == c))).length

/-- Consumed answer positions holding letter `c`. -/
def usedCount (used : List Nat) (answer : List Char) (c : Char) : Nat :=
  (used.filter (fun j => answer.getD j ' ' == c)).length

/-- Positions of a final result classified Exact or Present whose guess
letter is `c`. -/
def hitCount (result : List Matching) (guess : List Char) (c : Char) : Nat :=
  ((List.range guess.length).filter
    (fun i => (result.getD i Matching.NONE == Matching.EXACT ||
        result.getD i Matching.NONE == Matching.SEMI) &&
      (guess.getD i ' ' == c))).length

/-- Invariant of the first matching pass: cells are unmarked or Exact,
a cell is marked exactly when its index is consumed, and every consumed
index is an in-range position where answer and guess agree. -/
def Pass1Inv (answer guess : List Char)
    (st : List (Option Matching) × List Nat) : Prop :=
  st.1.length = WORD_LEN ∧
  (∀ i, (st.1.getD i none).isSome = true ↔ i ∈ st.2) ∧
  (∀ i, st.1.getD i none = none ∨ st.1.getD i none = some Matching.EXACT) ∧
  (∀ i ∈ st.2, i < guess.length ∧ answer.getD i ' ' = guess.getD i ' ') ∧
  st.2.Nodup

/-- Invariant of the second matching pass: the used set is a
duplicate-free set of in-range answer positions, no cell is marked with
the Absent classification, and for every letter the marked positions
and the consumed answer positions count the same. -/
def Pass2Inv (answer guess : List Char)
    (st : List (Option Matching) × List Nat) : Prop :=
  st.1.length = WORD_LEN ∧
  st.2.Nodup ∧
  (∀ j ∈ st.2, j < answer.length) ∧
  (∀ i, st.1.getD i none ≠ some Matching.NONE) ∧
  (∀ c, markedCount st.1 guess c = usedCount st.2 answer c)

/-- The empty initial state satisfies the pass-1 invariant. -/
theorem pass1_init_inv (answer guess : List Char) :
    Pass1Inv answer guess (List.replicate WORD_LEN none, []) := by
  refine ⟨List.length_replicate WORD_LEN none, ?_, ?_, ?_, List.nodup_nil⟩
  · intro i
    rw [getD_replicate]
    simp
  · intro i
    exact Or.inl (getD_replicate none WORD_LEN i)
  · intro i hi
    cases hi

/-- One pass-1 step preserves the pass-1 invariant. -/
theorem pass1_step_inv (answer guess : List Char) (hg : guess.length = WORD_LEN)
    (st : List (Option Matching) × List Nat) (ig : Nat × Char)
    (hmem : ig ∈ guess.enum) (hinv : Pass1Inv answer guess st) :
    Pass1Inv answer guess (pass1_step answer st ig) := by
  obtain ⟨hlen, hiff, hval, hbound, hnd⟩ := hinv
  obtain ⟨hilt, higd⟩ := mem_enum_getD guess ig.1 ig.2 ' ' hmem
  have hlt1 : ig.1 < st.1.length := by rw [hlen, ← hg]; exact hilt
  unfold pass1_step
  split
  · rename_i hcond
    have hae : answer.getD ig.1 ' ' = ig.2 := by simpa using hcond
    refine ⟨by rw [List.length_set]; exact hlen, ?_, ?_, ?_,
      nodup_insert_if st.2 ig.1 hnd⟩
    · intro n
      rw [mem_insert_if]
      by_cases hn : n = ig.1
      · subst hn
        rw [getD_set_self _ _ _ _ hlt1]
        simp
      · rw [getD_set_ne _ _ _ _ _ hn]
        rw [hiff n]
        constructor
        · exact Or.inr
        · rintro (rfl | h)
          · exact absurd rfl hn
          · exact h
    · intro n
      by_cases hn : n = ig.1
      · subst hn
        rw [getD_set_self _ _ _ _ hlt1]
        exact Or.inr rfl
      · rw [getD_set_ne _ _ _ _ _ hn]
        exact hval n
    · intro n hn
      rw [mem_insert_if] at hn
      rcases hn with rfl | hn
      · exact ⟨hilt, by rw [hae, higd]⟩
      · exact hbound n hn
  · exact ⟨hlen, hiff, hval, hbound, hnd⟩

/-- The pass-1 invariant entails the pass-2 invariant at the handoff. -/
theorem pass1_inv_to_pass2 (answer guess : List Char)
    (ha : answer.length = WORD_LEN) (hg : guess.length = WORD_LEN)
    (st : List (Option Matching) × List Nat)
    (hinv : Pass1Inv answer guess st) : Pass2Inv answer guess st := by
  obtain ⟨hlen, hiff, hval, hbound, hnd⟩ := hinv
  refine ⟨hlen, hnd, ?_, ?_, ?_⟩
  · intro j hj
    rw [ha, ← hg]
    exact (hbound j hj).1
  · intro i
    rcases hval i with h | h <;> rw [h] <;> simp
  · intro c
    unfold markedCount usedCount
    rw [length_filter_eq_range_filter guess.length st.2 hnd
      (fun j hj => (hbound j hj).1) (fun j => answer.getD j ' ' == c)]
    congr 1
    apply List.filter_congr
    intro i _
    by_cases him : i ∈ st.2
    · have h1 : (st.1.getD i none).isSome = true := (hiff i).mpr him
      have h2 : answer.getD i ' ' = guess.getD i ' ' := (hbound i him).2
      rw [h1, h2]
      simp [him]
    · have h1 : (st.1.getD i none).isSome = false := by
        rw [← Bool.not_eq_true, hiff i]
        exact him
      rw [h1]
      simp [him]

/-- One pass-2 step preserves the pass-2 invariant: a newly marked
guess position consumes exactly one fresh answer position holding the
same letter. -/
theorem pass2_step_inv (answer guess : List Char) (hg : guess.length = WORD_LEN)
    (st : List (Option Matching) × List Nat) (ig : Nat × Char)
    (hmem : ig ∈ guess.enum) (hinv : Pass2Inv answer guess st) :
    Pass2Inv answer guess (pass2_step answer st ig) := by
  obtain ⟨hlen, hnd, hbound, hnn, hcnt⟩ := hinv
  obtain ⟨hilt, higd⟩ := mem_enum_getD guess ig.1 ig.2 ' ' hmem
  have hlt1 : ig.1 < st.1.length := by rw [hlen, ← hg]; exact hilt
  unfold pass2_step
  cases hres : st.1.getD ig.1 none with
  | some m => exact ⟨hlen, hnd, hbound, hnn, hcnt⟩
  | none =>
    cases hfind : answer.enum.find?
        (fun ja => ja.2 == ig.2 && !(st.2.contains ja.1)) with
    | none => exact ⟨hlen, hnd, hbound, hnn, hcnt⟩
    | some ja =>
      have hjmem : ja ∈ answer.enum := List.mem_of_find?_eq_some hfind
      have hjp := List.find?_some hfind
      obtain ⟨hjlt, hjgd⟩ := mem_enum_getD answer ja.1 ja.2 ' ' hjmem
      simp only [Bool.and_eq_true, Bool.not_eq_true'] at hjp
      have hjeq : ja.2 = ig.2 := by simpa using hjp.1
      have hjnot : ja.1 ∉ st.2 := by
        intro hc
        have hc' : st.2.contains ja.1 = true := by
          simpa [List.contains, List.elem_iff] using hc
        rw [hjp.2] at hc'
        cases hc'
      show Pass2Inv answer guess
        (st.1.set ig.1 (some Matching.SEMI),
          if st.2.contains ja.1 then st.2 else ja.1 :: st.2)
      rw [hjp.2, if_neg (by simp : ¬ (false = true))]
      refine ⟨by rw [List.length_set]; exact hlen,
        List.nodup_cons.mpr ⟨hjnot, hnd⟩, ?_, ?_, ?_⟩
      · intro j hj
        rcases List.mem_cons.mp hj with rfl | hj'
        · exact hjlt
        · exact hbound j hj'
      · intro n
        by_cases hn : n = ig.1
        · subst hn
          rw [getD_set_self _ _ _ _ hlt1]
          simp
        · rw [getD_set_ne _ _ _ _ _ hn]
          exact hnn n
      · intro c
        have hupd := length_filter_update (List.range guess.length)
          (List.nodup_range guess.length) ig.1 (List.mem_range.mpr hilt)
          (fun i => (st.1.getD i none).isSome && (guess.getD i ' ' == c))
          (fun i => ((st.1.set ig.1 (some Matching.SEMI)).getD i none).isSome &&
            (guess.getD i ' ' == c))
          (by
            show ((st.1.getD ig.1 none).isSome && (guess.getD ig.1 ' ' == c)) = false
            rw [hres]
            rfl)
          (fun j _ hj => by
            show ((st.1.getD j none).isSome && (guess.getD j ' ' == c)) =
              (((st.1.set ig.1 (some Matching.SEMI)).getD j none).isSome &&
                (guess.getD j ' ' == c))
            rw [getD_set_ne _ _ _ _ _ hj])
        have hq : (((st.1.set ig.1 (some Matching.SEMI)).getD ig.1 none).isSome &&
            (guess.getD ig.1 ' ' == c)) = (guess.getD ig.1 ' ' == c) := by
          rw [getD_set_self _ _ _ _ hlt1]
          simp
        have hq' : ((fun i => ((st.1.set ig.1 (some Matching.SEMI)).getD i none).isSome &&
            (guess.getD i ' ' == c)) ig.1) = (guess.getD ig.1 ' ' == c) := hq
        have hcond : (answer.getD ja.1 ' ' == c) = (guess.getD ig.1 ' ' == c) := by
          rw [hjgd, hjeq, higd]
        have hlhs : markedCount (st.1.set ig.1 (some Matching.SEMI)) guess c =
            markedCount st.1 guess c +
              (if (guess.getD ig.1 ' ' == c) = true then 1 else 0) := by
          unfold markedCount
          rw [hupd, hq']
        have hrhs : usedCount (ja.1 :: st.2) answer c =
            usedCount st.2 answer c +
              (if (guess.getD ig.1 ' ' == c) = true then 1 else 0) := by
          unfold usedCount
          rw [List.filter_cons, hcond]
          cases hgc : (guess.getD ig.1 ' ' == c) <;> simp [hgc]
        show markedCount (st.1.set ig.1 (some Matching.SEMI)) guess c =
          usedCount (ja.1 :: st.2) answer c
        rw [hlhs, hrhs, hcnt c]

/-- The two-pass matcher on equal-length words: for every letter, the
Exact/Present positions never outnumber that letter's occurrences in
either word. -/
theorem match_chars_counts (answer guess : List Char)
    (ha : answer.length = WORD_LEN) (hg : guess.length = WORD_LEN) (c : Char) :
    hitCount (match_chars answer guess) guess c ≤ answer.count c ∧
    hitCount (match_chars answer guess) guess c ≤ guess.count c := by
  set st1 := guess.enum.foldl (pass1_step answer)
    (List.replicate WORD_LEN none, []) with hst1
  set st2 := guess.enum.foldl (pass2_step answer) st1 with hst2
  have hinv1 : Pass1Inv answer guess st1 :=
    foldl_invariant (pass1_step answer) (Pass1Inv answer guess) guess.enum
      (List.replicate WORD_LEN none, []) (pass1_init_inv answer guess)
      (fun st x hx hst => pass1_step_inv answer guess hg st x hx hst)
  have hinv2 : Pass2Inv answer guess st2 :=
    foldl_invariant (pass2_step answer) (Pass2Inv answer guess) guess.enum st1
      (pass1_inv_to_pass2 answer guess ha hg st1 hinv1)
      (fun st x hx hst => pass2_step_inv answer guess hg st x hx hst)
  obtain ⟨hlen, hnd, hbound, hnn, hcnt⟩ := hinv2
  have hmc : match_chars answer guess =
      st2.1.map (fun r => r.getD Matching.NONE) := rfl
  have hhm : hitCount (match_chars answer guess) guess c =
      markedCount st2.1 guess c := by
    unfold hitCount markedCount
    congr 1
    apply List.filter_congr
    intro i hi
    have hilt : i < st2.1.length := by
      rw [hlen, ← hg]
      exact List.mem_range.mp hi
    have hgetd : (match_chars answer guess).getD i Matching.NONE =
        (st2.1.getD i none).getD Matching.NONE := by
      rw [hmc, List.getD_eq_getElem?_getD, List.getD_eq_getElem?_getD,
        List.getElem?_map]
      cases st2.1[i]? <;> rfl
    rw [hgetd]
    cases hv : st2.1.getD i none with
    | none => simp
    | some m =>
      cases m with
      | EXACT => simp
      | SEMI => simp
      | NONE => exact absurd hv (hnn i)
  constructor
  · rw [hhm, hcnt c]
    unfold usedCount
    rw [count_eq_length_filter_range c ' ' answer,
      length_filter_eq_range_filter answer.length st2.2 hnd hbound
        (fun j => answer.getD j ' ' == c)]
    exact (List.monotone_filter_right (List.range answer.length)
      (fun a hpa => (Bool.and_eq_true _ _ |>.mp hpa).2)).length_le
  · rw [hhm]
    unfold markedCount
    rw [count_eq_length_filter_range c ' ' guess]
    exact (List.monotone_filter_right (List.range guess.length)
      (fun a hpa => (Bool.and_eq_true _ _ |>.mp hpa).2)).length_le

/-- C2: for length-5 answer and guess and every letter `c`, the number
of positions of `match_words answer guess` classified Exact or Present
whose guess letter is `c` is at most the number of occurrences of `c`
in the answer, and at most the number of occurrences of `c` in the
guess. -/
theorem C2_letter_conservation (answer guess : String)
    (ha : answer.length = 5) (hg : guess.length = 5) (c : Char) :
    hitCount (match_words answer guess) guess.data c ≤ answer.data.count c ∧
    hitCount (match_words answer guess) guess.data c ≤ guess.data.count c :=
  match_chars_counts answer.data guess.data ha hg c

/-- Witness for C2 on a concrete pair with repeated letters. -/
theorem C2_letter_conservation_witness :
    ("abbey" : String).length = 5 ∧ ("kebab" : String).length = 5 ∧
    (hitCount (match_words "abbey" "kebab") ("kebab" : String).data 'b' ≤
        ("abbey" : String).data.count 'b' ∧
      hitCount (match_words "abbey" "kebab") ("kebab" : String).data 'b' ≤
        ("kebab" : String).data.count 'b') :=
  ⟨rfl, rfl, C2_letter_conservation "abbey" "kebab" rfl rfl 'b'⟩
